import Mathlib

/-!
Shallow embedding of the opentalk timesheet core (`main.go`):
session reconstruction from voice-channel activity events, nested-session
filtering, and fixed-window daily aggregation.

Times are modelled as seconds since the Unix epoch (`Time := Int`);
Go's `time.Time` comparisons (`Before`/`After`), `Truncate(24h)`,
`Year()` and `YearDay()` are modelled on this representation, and
`time.Parse(time.RFC3339, s)` is modelled on the canonical
`YYYY-MM-DDTHH:MM:SSZ` form that the repository's data uses
(any other string is a parse failure).
-/

namespace Opentalk

/-- Seconds since the Unix epoch, UTC. -/
abbrev Time := Int

/-- `minTime` from main.go: `if a.Before(b) { return a }; return b`. -/
def minTime (a b : Time) : Time := if a < b then a else b

/-- `maxTime` from main.go: `if a.After(b) { return a }; return b`. -/
def maxTime (a b : Time) : Time := if b < a then a else b

/-- Go's `t.Truncate(24*time.Hour)`: round down to the enclosing UTC
midnight (the zero `time.Time` is itself at a midnight, so truncation
relative to it coincides with truncation relative to the epoch). -/
def truncDay (t : Time) : Time := 86400 * (t.fdiv 86400)

/-- Gregorian leap-year test. -/
def isLeap (y : Int) : Bool := (y % 4 == 0 && y % 100 != 0) || y % 400 == 0

/-- Civil date from a day count since the epoch (standard era-based
calendar algorithm): returns `(year, month, day)`. -/
def civilFromDays (z : Int) : Int × Nat × Nat :=
  let z' := z + 719468
  let era := z'.fdiv 146097
  let doe := (z' - era * 146097).toNat
  let yoe := (doe - doe / 1460 + doe / 36524 - doe / 146096) / 365
  let doy := doe - (365 * yoe + yoe / 4 - yoe / 100)
  let mp := (5 * doy + 2) / 153
  let d := doy - (153 * mp + 2) / 5 + 1
  let m := if mp < 10 then mp + 3 else mp - 9
  let y := (yoe : Int) + era * 400 + (if m ≤ 2 then 1 else 0)
  (y, m, d)

/-- Days since the epoch for a civil date (inverse of `civilFromDays`). -/
def daysFromCivil (y : Int) (m d : Nat) : Int :=
  let y' := if m ≤ 2 then y - 1 else y
  let era := y'.fdiv 400
  let yoe := (y' - era * 400).toNat
  let mp := if 2 < m then m - 3 else m + 9
  let doy := (153 * mp + 2) / 5 + d - 1
  let doe := yoe * 365 + yoe / 4 - yoe / 100 + doy
  era * 146097 + (doe : Int) - 719468

/-- Go's `t.Year()` (UTC). -/
def yearOf (t : Time) : Int := (civilFromDays (t.fdiv 86400)).1

/-- Cumulative days before month `m` (1-based) in a non-leap year. -/
def daysBeforeMonth : Nat → Nat
  | 1 => 0
  | 2 => 31
  | 3 => 59
  | 4 => 90
  | 5 => 120
  | 6 => 151
  | 7 => 181
  | 8 => 212
  | 9 => 243
  | 10 => 273
  | 11 => 304
  | 12 => 334
  | _ => 0

/-- Go's `t.YearDay()` (UTC): 1-based day of the year. -/
def yearDayOf (t : Time) : Nat :=
  let c := civilFromDays (t.fdiv 86400)
  let leapExtra := if isLeap c.1 ∧ 3 ≤ c.2.1 then 1 else 0
  daysBeforeMonth c.2.1 + leapExtra + c.2.2

/-- Numeric value of a decimal digit character, if it is one. -/
def digitVal (c : Char) : Option Nat :=
  if '0' ≤ c ∧ c ≤ '9' then some (c.toNat - 48) else none

/-- Days in a month of a given year. -/
def daysInMonth (y : Int) (m : Nat) : Nat :=
  if m = 2 then (if isLeap y then 29 else 28)
  else if m = 4 ∨ m = 6 ∨ m = 9 ∨ m = 11 then 30
  else 31

/-- Model of Go's `time.Parse(time.RFC3339, s)` on the canonical UTC
form `YYYY-MM-DDTHH:MM:SSZ`; every other string is a parse failure. -/
def parseRFC3339 (s : String) : Option Time :=
  match s.toList with
  | [y1, y2, y3, y4, '-', m1, m2, '-', d1, d2, 'T',
     h1, h2, ':', n1, n2, ':', e1, e2, 'Z'] =>
    match digitVal y1, digitVal y2, digitVal y3, digitVal y4,
          digitVal m1, digitVal m2, digitVal d1, digitVal d2,
          digitVal h1, digitVal h2, digitVal n1, digitVal n2,
          digitVal e1, digitVal e2 with
    | some a, some b, some c, some d, some mo1, some mo2, some da1, some da2,
      some ho1, some ho2, some mi1, some mi2, some se1, some se2 =>
      let y : Int := (1000 * a + 100 * b + 10 * c + d : Nat)
      let mo := 10 * mo1 + mo2
      let da := 10 * da1 + da2
      let ho := 10 * ho1 + ho2
      let mi := 10 * mi1 + mi2
      let se := 10 * se1 + se2
      if 1 ≤ mo ∧ mo ≤ 12 ∧ 1 ≤ da ∧ da ≤ daysInMonth y mo ∧
         ho ≤ 23 ∧ mi ≤ 59 ∧ se ≤ 59 then
        some (86400 * daysFromCivil y mo da +
              3600 * (ho : Int) + 60 * (mi : Int) + (se : Int))
      else none
    | _, _, _, _, _, _, _, _, _, _, _, _, _, _ => none
  | _ => none

/-- `VoiceChannelUser` from main.go (one raw activity event). -/
structure VoiceChannelUser where
  ID : Int
  UserID : String
  ClanID : Int
  ChannelID : Int
  DisplayName : String
  CreateTime : String
  UpdateTime : String
  Active : Int
deriving DecidableEq

/-- `Session` from main.go (a reconstructed presence interval). -/
structure Session where
  Name : String
  GoogleID : String
  StartTime : Time
  EndTime : Time
deriving DecidableEq

/-- `SessionTime` from main.go (aggregated in-window duration, seconds). -/
structure SessionTime where
  Name : String
  GoogleID : String
  TotalTime : Int
  Date : Time
deriving DecidableEq

/-- Reconstructor state: the open session (if any) and the emitted ones. -/
abbrev RState := Option Session × List Session

/-- One iteration of the inner loop of `processActivities` in main.go:
handle one activity against the current open session and the emitted
list.  `none` models the `return nil` taken on a timestamp parse error. -/
def stepActivity (a : VoiceChannelUser) (st : RState) : Option RState :=
  if a.Active = 2 then
    match parseRFC3339 a.CreateTime, parseRFC3339 a.UpdateTime with
    | some startTime, some endTime =>
      match st.1 with
      | none =>
        some (some ⟨a.DisplayName, a.UserID, startTime, endTime⟩, st.2)
      | some cur =>
        some (some ⟨cur.Name, cur.GoogleID,
                    minTime cur.StartTime startTime,
                    maxTime cur.EndTime endTime⟩, st.2)
    | _, _ => none
  else if a.Active = 0 then
    match st.1 with
    | some cur =>
      match parseRFC3339 a.UpdateTime with
      | some endTime =>
        some (none, st.2 ++ [⟨cur.Name, cur.GoogleID, cur.StartTime,
                              maxTime cur.EndTime endTime⟩])
      | none => none
    | none => some st
  else some st

/-- The inner loop of `processActivities` over one subject's events. -/
def loopPartition : List VoiceChannelUser → RState → Option RState
  | [], st => some st
  | a :: rest, st =>
    match stepActivity a st with
    | none => none
    | some st' => loopPartition rest st'

/-- Processing of one subject partition, including the trailing
still-open session emitted after the loop in main.go. -/
def processPartition (acts : List VoiceChannelUser) : Option (List Session) :=
  match loopPartition acts (none, []) with
  | none => none
  | some (some cur, sessions) => some (sessions ++ [cur])
  | some (none, sessions) => some sessions

/-- The events of `acts` whose `DisplayName` is `k` (the
`userSessions[activity.DisplayName]` grouping of main.go keeps each
partition in arrival order). -/
def partitionOf (acts : List VoiceChannelUser) (k : String) :
    List VoiceChannelUser :=
  acts.filter fun a => decide (a.DisplayName = k)

/-- Distinct display names in first-occurrence order (the Go map's key
set; its iteration order is unspecified, so this fixes one order). -/
def groupKeysAux : List VoiceChannelUser → List String → List String
  | [], _ => []
  | a :: rest, seen =>
    if a.DisplayName ∈ seen then groupKeysAux rest seen
    else a.DisplayName :: groupKeysAux rest (a.DisplayName :: seen)

/-- The distinct subject keys of a batch. -/
def groupKeys (acts : List VoiceChannelUser) : List String :=
  groupKeysAux acts []

/-- Concatenate the per-partition results; any partition's parse
failure makes the whole result `none` (main.go's `return nil`). -/
def processGroups (acts : List VoiceChannelUser) :
    List String → Option (List Session)
  | [] => some []
  | k :: ks =>
    match processPartition (partitionOf acts k) with
    | none => none
    | some ss =>
      match processGroups acts ks with
      | none => none
      | some rest => some (ss ++ rest)

/-- `processActivities` from main.go: group events by display name and
reconstruct each partition's sessions. -/
def processActivities (acts : List VoiceChannelUser) :
    Option (List Session) :=
  processGroups acts (groupKeys acts)

/-- Strict containment of `s` in `t` for the same subject, as checked
inside `FilterSessions` in main.go. -/
def Contains (t s : Session) : Prop :=
  t.Name = s.Name ∧ t.StartTime < s.StartTime ∧ s.EndTime < t.EndTime

instance (t s : Session) : Decidable (Contains t s) := by
  unfold Contains; infer_instance

/-- The sort order of `FilterSessions` in main.go: by name, then by
start time. -/
def SLE (a b : Session) : Prop :=
  a.Name < b.Name ∨ (a.Name = b.Name ∧ a.StartTime ≤ b.StartTime)

instance (a b : Session) : Decidable (SLE a b) := by
  unfold SLE; infer_instance

/-- Insert into a list sorted by `SLE` (stable). -/
def insertSorted (a : Session) : List Session → List Session
  | [] => [a]
  | b :: l => if SLE a b then a :: b :: l else b :: insertSorted a l

/-- The `sort.Slice` call of `FilterSessions`, modelled as a stable
insertion sort by `(Name, StartTime)`. -/
def sortSessions : List Session → List Session
  | [] => []
  | a :: l => insertSorted a (sortSessions l)

/-- The scan of `FilterSessions`: drop each session strictly contained
in some session occurring earlier in the sorted list (`prev` holds all
earlier sessions, dropped or not, as `j < i` ranges over the array). -/
def dropContained (prev : List Session) :
    List Session → List Session
  | [] => []
  | c :: rest =>
    if prev.any fun t => decide (Contains t c) then
      dropContained (prev ++ [c]) rest
    else
      c :: dropContained (prev ++ [c]) rest

/-- `FilterSessions` from main.go. -/
def FilterSessions (sessions : List Session) : List Session :=
  dropContained [] (sortSessions sessions)

/-- The Go `map[string]SessionTime`, as an association list. -/
abbrev TimeMap := List (String × SessionTime)

/-- Map lookup. -/
def lookupMap : TimeMap → String → Option SessionTime
  | [], _ => none
  | (k', v') :: rest, k => if k' = k then some v' else lookupMap rest k

/-- Map insert/replace. -/
def setMap : TimeMap → String → SessionTime → TimeMap
  | [], k, v => [(k, v)]
  | (k', v') :: rest, k, v =>
    if k' = k then (k, v) :: rest else (k', v') :: setMap rest k v

/-- The composite accumulator key of the Aggregator
(`userKey := s.Name + s.GoogleID` in main.go). -/
def contribKey (s : Session) : String := s.Name ++ s.GoogleID

/-- The Aggregator's day test for a session against the target date
(`s.StartTime.Year() == date.Year() && s.StartTime.YearDay() ==
date.YearDay()` in main.go). -/
def matchesDay (date : Time) (s : Session) : Prop :=
  yearOf s.StartTime = yearOf date ∧ yearDayOf s.StartTime = yearDayOf date

instance (date : Time) (s : Session) : Decidable (matchesDay date s) := by
  unfold matchesDay; infer_instance

/-- `effectiveStart` after the clipping `if` of main.go. -/
def effStart (start3h : Time) (s : Session) : Time :=
  if s.StartTime < start3h then start3h else s.StartTime

/-- `effectiveEnd` after the clipping `if` of main.go. -/
def effEnd (end5h : Time) (s : Session) : Time :=
  if end5h < s.EndTime then end5h else s.EndTime

/-- The Aggregator's nonempty-overlap guard
(`effectiveStart.Before(effectiveEnd)` in main.go). -/
def overlapsWindow (start3h end5h : Time) (s : Session) : Prop :=
  effStart start3h s < effEnd end5h s

instance (start3h end5h : Time) (s : Session) :
    Decidable (overlapsWindow start3h end5h s) := by
  unfold overlapsWindow; infer_instance

/-- The body of the loop of `CalculateTotalTimeForDate` in main.go for
one session, with the precomputed day bounds passed in. -/
def aggStep (date start3h end5h startOfDay : Time)
    (m : TimeMap) (s : Session) : TimeMap :=
  if matchesDay date s then
    if overlapsWindow start3h end5h s then
      match lookupMap m (s.Name ++ s.GoogleID) with
      | some st =>
        setMap m (s.Name ++ s.GoogleID)
          ⟨st.Name, st.GoogleID,
           st.TotalTime + (effEnd end5h s - effStart start3h s), st.Date⟩
      | none =>
        setMap m (s.Name ++ s.GoogleID)
          ⟨s.Name, s.GoogleID,
           effEnd end5h s - effStart start3h s, startOfDay⟩
    else m
  else m

/-- `CalculateTotalTimeForDate` from main.go: clip every session of the
target UTC calendar day to `[midnight+3h, midnight+5h)` and accumulate
per `Name ++ GoogleID` key. -/
def CalculateTotalTimeForDate (sessions : List Session) (date : Time) :
    TimeMap :=
  sessions.foldl
    (aggStep date (truncDay date + 10800) (truncDay date + 18000)
      (truncDay date)) []

/-- Accumulated total for a key (`0` when the key is absent). -/
def totalOf (m : TimeMap) (k : String) : Int :=
  match lookupMap m k with
  | some v => v.TotalTime
  | none => 0

/-- A session passes the Aggregator's guards for the target date: the
day matches and the clipped interval is nonempty. -/
def contributes (date : Time) (s : Session) : Prop :=
  matchesDay date s ∧
  overlapsWindow (truncDay date + 10800) (truncDay date + 18000) s

instance (date : Time) (s : Session) : Decidable (contributes date s) := by
  unfold contributes; infer_instance

/-- The clipped in-window duration of a session, clamped at `0`. -/
def clampContribution (date : Time) (s : Session) : Int :=
  max 0 (min s.EndTime (truncDay date + 18000) -
         max s.StartTime (truncDay date + 10800))

/-! ### Lemmas about the sort used by `FilterSessions` -/

theorem SLE_total {a b : Session} (h : ¬ SLE a b) : SLE b a := by
  unfold SLE at h ⊢
  push_neg at h
  rcases lt_trichotomy a.Name b.Name with hlt | heq | hgt
  · exact absurd hlt h.1
  · exact Or.inr ⟨heq.symm, le_of_lt (h.2 heq)⟩
  · exact Or.inl hgt

theorem SLE_trans {a b c : Session} (h1 : SLE a b) (h2 : SLE b c) :
    SLE a c := by
  unfold SLE at h1 h2 ⊢
  rcases h1 with h1 | ⟨e1, l1⟩ <;> rcases h2 with h2 | ⟨e2, l2⟩
  · exact Or.inl (lt_trans h1 h2)
  · exact Or.inl (by rw [← e2]; exact h1)
  · exact Or.inl (by rw [e1]; exact h2)
  · exact Or.inr ⟨e1.trans e2, le_trans l1 l2⟩

theorem mem_insertSorted (x a : Session) :
    ∀ l : List Session, x ∈ insertSorted a l ↔ x = a ∨ x ∈ l := by
  intro l
  induction l with
  | nil => simp [insertSorted]
  | cons b l ih =>
    rw [insertSorted]
    by_cases hab : SLE a b
    · rw [if_pos hab]
      simp [List.mem_cons]
    · rw [if_neg hab]
      simp only [List.mem_cons, ih]
      tauto

theorem pairwise_insertSorted (a : Session) :
    ∀ l : List Session, l.Pairwise SLE →
      (insertSorted a l).Pairwise SLE := by
  intro l
  induction l with
  | nil => simp [insertSorted]
  | cons b l ih =>
    intro h
    obtain ⟨hb, hl⟩ := List.pairwise_cons.mp h
    rw [insertSorted]
    by_cases hab : SLE a b
    · rw [if_pos hab]
      refine List.pairwise_cons.mpr ⟨?_, h⟩
      intro x hx
      rcases List.mem_cons.mp hx with rfl | hx
      · exact hab
      · exact SLE_trans hab (hb x hx)
    · rw [if_neg hab]
      refine List.pairwise_cons.mpr ⟨?_, ih hl⟩
      intro x hx
      rcases (mem_insertSorted x a l).mp hx with rfl | hx
      · exact SLE_total hab
      · exact hb x hx

theorem mem_sortSessions (x : Session) :
    ∀ l : List Session, x ∈ sortSessions l ↔ x ∈ l := by
  intro l
  induction l with
  | nil => exact Iff.rfl
  | cons a l ih =>
    rw [sortSessions, mem_insertSorted, ih]
    simp [List.mem_cons]

theorem pairwise_sortSessions :
    ∀ l : List Session, (sortSessions l).Pairwise SLE := by
  intro l
  induction l with
  | nil => simp [sortSessions]
  | cons a l ih => exact pairwise_insertSorted a (sortSessions l) ih

/-- No session strictly contains itself. -/
theorem not_contains_self (c : Session) : ¬ Contains c c := by
  rintro ⟨-, h, -⟩
  exact lt_irrefl _ h

/-- In a list sorted by `SLE`, no later session strictly contains the
head. -/
theorem not_contains_of_SLE {c t : Session} (h : SLE c t)
    (hc : Contains t c) : False := by
  obtain ⟨hn, hs, -⟩ := hc
  rcases h with h | ⟨-, h⟩
  · rw [hn] at h
    exact lt_irrefl _ h
  · exact absurd hs (not_lt_of_le h)

theorem mem_dropContained (x : Session) :
    ∀ (rest prev : List Session), rest.Pairwise SLE →
      (x ∈ dropContained prev rest ↔
        x ∈ rest ∧ ¬ ∃ t, t ∈ prev ++ rest ∧ Contains t x) := by
  intro rest
  induction rest with
  | nil => simp [dropContained]
  | cons c rest ih =>
    intro prev h
    obtain ⟨hc, hrest⟩ := List.pairwise_cons.mp h
    have hmem : ∀ t : Session,
        t ∈ (prev ++ [c]) ++ rest ↔ t ∈ prev ++ c :: rest := by
      intro t
      rw [List.append_assoc, List.singleton_append]
    rw [dropContained]
    by_cases hg : ∃ t ∈ prev, Contains t c
    · obtain ⟨t0, ht0, hc0⟩ := hg
      rw [if_pos (List.any_eq_true.mpr ⟨t0, ht0, decide_eq_true hc0⟩)]
      rw [ih (prev ++ [c]) hrest]
      constructor
      · rintro ⟨hx, hn⟩
        refine ⟨List.mem_cons_of_mem c hx, ?_⟩
        rintro ⟨t, ht, hcx⟩
        exact hn ⟨t, (hmem t).mpr ht, hcx⟩
      · rintro ⟨hx, hn⟩
        rcases List.mem_cons.mp hx with rfl | hx
        · exact absurd ⟨t0, List.mem_append_left _ ht0, hc0⟩ hn
        · refine ⟨hx, ?_⟩
          rintro ⟨t, ht, hcx⟩
          exact hn ⟨t, (hmem t).mp ht, hcx⟩
    · have hgb : ¬ (prev.any fun t => decide (Contains t c)) = true := by
        intro hb
        obtain ⟨t, ht, hdec⟩ := List.any_eq_true.mp hb
        exact hg ⟨t, ht, of_decide_eq_true hdec⟩
      rw [if_neg hgb]
      have hNc : ¬ ∃ t, t ∈ prev ++ c :: rest ∧ Contains t c := by
        rintro ⟨t, ht, hcx⟩
        rcases List.mem_append.mp ht with ht | ht
        · exact hg ⟨t, ht, hcx⟩
        · rcases List.mem_cons.mp ht with rfl | ht
          · exact not_contains_self t hcx
          · exact not_contains_of_SLE (hc t ht) hcx
      rw [List.mem_cons, ih (prev ++ [c]) hrest]
      constructor
      · rintro (rfl | ⟨hx, hn⟩)
        · exact ⟨List.mem_cons_self _ _, hNc⟩
        · refine ⟨List.mem_cons_of_mem c hx, ?_⟩
          rintro ⟨t, ht, hcx⟩
          exact hn ⟨t, (hmem t).mpr ht, hcx⟩
      · rintro ⟨hx, hn⟩
        rcases List.mem_cons.mp hx with rfl | hx
        · exact Or.inl rfl
        · refine Or.inr ⟨hx, ?_⟩
          rintro ⟨t, ht, hcx⟩
          exact hn ⟨t, (hmem t).mp ht, hcx⟩

/-- C4: `FilterSessions` drops exactly the strictly contained sessions:
a session `s` of the input is absent from the output iff some session
`t` of the input with the same name satisfies
`t.StartTime < s.StartTime` and `t.EndTime > s.EndTime`; merely
overlapping sessions are retained. -/
theorem C4_filter_drops_exactly_strictly_contained
    (sessions : List Session) (s : Session) (hs : s ∈ sessions) :
    s ∈ FilterSessions sessions ↔
      ¬ ∃ t, t ∈ sessions ∧ t.Name = s.Name ∧
        t.StartTime < s.StartTime ∧ t.EndTime > s.EndTime := by
  unfold FilterSessions
  rw [mem_dropContained s (sortSessions sessions) []
      (pairwise_sortSessions sessions)]
  rw [List.nil_append]
  constructor
  · rintro ⟨-, hn⟩ ⟨t, ht, h1, h2, h3⟩
    exact hn ⟨t, (mem_sortSessions t sessions).mpr ht, h1, h2, h3⟩
  · intro hn
    refine ⟨(mem_sortSessions s sessions).mpr hs, ?_⟩
    rintro ⟨t, ht, h1, h2, h3⟩
    exact hn ⟨t, (mem_sortSessions t sessions).mp ht, h1, h2, h3⟩

theorem C4_witness :
    ((⟨"A", "u", 10, 50⟩ : Session) ∈
        FilterSessions [⟨"A", "u", 10, 50⟩, ⟨"A", "u", 0, 100⟩] ↔
      ¬ ∃ t, t ∈ ([⟨"A", "u", 10, 50⟩, ⟨"A", "u", 0, 100⟩] : List Session) ∧
        t.Name = "A" ∧ t.StartTime < 10 ∧ t.EndTime > 50) :=
  C4_filter_drops_exactly_strictly_contained
    [⟨"A", "u", 10, 50⟩, ⟨"A", "u", 0, 100⟩] ⟨"A", "u", 10, 50⟩ (by decide)

/-! ### Lemmas about the Aggregator's accumulator map -/

theorem lookupMap_setMap_self (k : String) (v : SessionTime) :
    ∀ m : TimeMap, lookupMap (setMap m k v) k = some v := by
  intro m
  induction m with
  | nil => simp [setMap, lookupMap]
  | cons p rest ih =>
    obtain ⟨k', v'⟩ := p
    rw [setMap]
    by_cases h : k' = k
    · rw [if_pos h, lookupMap, if_pos rfl]
    · rw [if_neg h, lookupMap, if_neg h, ih]

theorem lookupMap_setMap_ne (k q : String) (v : SessionTime) (hne : k ≠ q) :
    ∀ m : TimeMap, lookupMap (setMap m k v) q = lookupMap m q := by
  intro m
  induction m with
  | nil => simp [setMap, lookupMap, hne]
  | cons p rest ih =>
    obtain ⟨k', v'⟩ := p
    rw [setMap]
    by_cases h : k' = k
    · rw [if_pos h, lookupMap, if_neg hne, lookupMap, if_neg]
      rw [h]
      exact hne
    · rw [if_neg h, lookupMap, lookupMap]
      by_cases h2 : k' = q
      · rw [if_pos h2, if_pos h2]
      · rw [if_neg h2, if_neg h2, ih]

theorem mem_keys_setMap (k q : String) (v : SessionTime) :
    ∀ m : TimeMap,
      (q ∈ (setMap m k v).map Prod.fst ↔ q ∈ m.map Prod.fst ∨ q = k) := by
  intro m
  induction m with
  | nil => simp [setMap]
  | cons p rest ih =>
    obtain ⟨k', v'⟩ := p
    rw [setMap]
    by_cases h : k' = k
    · rw [if_pos h]
      subst h
      simp [List.mem_cons]
      tauto
    · rw [if_neg h]
      simp only [List.map_cons, List.mem_cons, ih]
      tauto

theorem nodup_keys_setMap (k : String) (v : SessionTime) :
    ∀ m : TimeMap, (m.map Prod.fst).Nodup →
      ((setMap m k v).map Prod.fst).Nodup := by
  intro m
  induction m with
  | nil => simp [setMap]
  | cons p rest ih =>
    obtain ⟨k', v'⟩ := p
    intro h
    rw [List.map_cons, List.nodup_cons] at h
    rw [setMap]
    by_cases hk : k' = k
    · rw [if_pos hk]
      subst hk
      rw [List.map_cons, List.nodup_cons]
      exact h
    · rw [if_neg hk]
      rw [List.map_cons, List.nodup_cons]
      refine ⟨?_, ih h.2⟩
      intro hmem
      rcases (mem_keys_setMap k k' v rest).mp hmem with hmem | hmem
      · exact h.1 hmem
      · exact hk hmem

/-- Rewriting main.go's clipping `if`s as `max`/`min`. -/
theorem if_lt_eq_max (a b : Int) : (if a < b then b else a) = max a b := by
  by_cases h : a < b
  · rw [if_pos h, max_eq_right (le_of_lt h)]
  · rw [if_neg h, max_eq_left (le_of_not_lt h)]

theorem if_lt_eq_min (a b : Int) : (if b < a then b else a) = min a b := by
  by_cases h : b < a
  · rw [if_pos h, min_eq_right (le_of_lt h)]
  · rw [if_neg h, min_eq_left (le_of_not_lt h)]

/-- The clipped bounds are `max`/`min` against the window bounds. -/
theorem effStart_eq_max (start3h : Time) (s : Session) :
    effStart start3h s = max s.StartTime start3h :=
  if_lt_eq_max s.StartTime start3h

theorem effEnd_eq_min (end5h : Time) (s : Session) :
    effEnd end5h s = min s.EndTime end5h := by
  unfold effEnd
  rw [if_lt_eq_min, min_comm]

/-- Effect of one Aggregator step on one key's accumulated total. -/
theorem totalOf_aggStep (date start3h end5h sod : Time) (m : TimeMap)
    (s : Session) (k : String) :
    totalOf (aggStep date start3h end5h sod m s) k =
      totalOf m k +
        (if matchesDay date s ∧ contribKey s = k then
          max 0 (min s.EndTime end5h - max s.StartTime start3h)
         else 0) := by
  unfold aggStep
  by_cases hday : matchesDay date s
  · rw [if_pos hday]
    by_cases hpos : overlapsWindow start3h end5h s
    · rw [if_pos hpos]
      have hpos' : effStart start3h s < effEnd end5h s := hpos
      have hclamp : max 0 (min s.EndTime end5h - max s.StartTime start3h) =
          effEnd end5h s - effStart start3h s := by
        rw [← effStart_eq_max, ← effEnd_eq_min]
        exact max_eq_right (le_of_lt (sub_pos.mpr hpos'))
      by_cases hk : contribKey s = k
      · rw [if_pos ⟨hday, hk⟩, hclamp]
        unfold contribKey at hk
        cases hl : lookupMap m (s.Name ++ s.GoogleID) with
        | some st =>
          unfold totalOf
          rw [hk, lookupMap_setMap_self, ← hk, hl]
        | none =>
          unfold totalOf
          rw [hk, lookupMap_setMap_self, ← hk, hl]
          ring
      · have hcond : ¬ (matchesDay date s ∧ contribKey s = k) := by
          rintro ⟨-, hkk⟩
          exact hk hkk
        rw [if_neg hcond, add_zero]
        unfold contribKey at hk
        cases hl : lookupMap m (s.Name ++ s.GoogleID) with
        | some st =>
          unfold totalOf
          rw [lookupMap_setMap_ne _ _ _ hk]
        | none =>
          unfold totalOf
          rw [lookupMap_setMap_ne _ _ _ hk]
    · rw [if_neg hpos]
      have hz : (if matchesDay date s ∧ contribKey s = k then
          max 0 (min s.EndTime end5h - max s.StartTime start3h) else 0) = 0 := by
        by_cases hc : matchesDay date s ∧ contribKey s = k
        · rw [if_pos hc, ← effStart_eq_max, ← effEnd_eq_min]
          exact max_eq_left (sub_nonpos.mpr (le_of_not_lt hpos))
        · rw [if_neg hc]
      rw [hz, add_zero]
  · rw [if_neg hday]
    have hcond : ¬ (matchesDay date s ∧ contribKey s = k) := by
      rintro ⟨hd, -⟩
      exact hday hd
    rw [if_neg hcond, add_zero]

/-- Effect of the Aggregator's whole fold on one key's total. -/
theorem totalOf_foldl (date start3h end5h sod : Time) (k : String) :
    ∀ (l : List Session) (m : TimeMap),
      totalOf (l.foldl (aggStep date start3h end5h sod) m) k =
        totalOf m k +
          ((l.filter fun s =>
              decide (matchesDay date s ∧ contribKey s = k)).map fun s =>
            max 0 (min s.EndTime end5h - max s.StartTime start3h)).sum := by
  intro l
  induction l with
  | nil => intro m; simp
  | cons s l ih =>
    intro m
    rw [List.foldl_cons, ih, totalOf_aggStep]
    simp only [List.filter_cons, decide_eq_true_eq]
    by_cases hc : matchesDay date s ∧ contribKey s = k
    · rw [if_pos hc, if_pos hc, List.map_cons, List.sum_cons]
      ring
    · rw [if_neg hc, if_neg hc]
      ring

/-- Effect of one Aggregator step on the key set. -/
theorem mem_keys_aggStep (date start3h end5h sod : Time) (m : TimeMap)
    (s : Session) (k : String) :
    k ∈ (aggStep date start3h end5h sod m s).map Prod.fst ↔
      k ∈ m.map Prod.fst ∨
        ((matchesDay date s ∧ overlapsWindow start3h end5h s) ∧
          contribKey s = k) := by
  unfold aggStep
  by_cases hday : matchesDay date s
  · rw [if_pos hday]
    by_cases hpos : overlapsWindow start3h end5h s
    · rw [if_pos hpos]
      have hgoal : ∀ v : SessionTime,
          (k ∈ (setMap m (s.Name ++ s.GoogleID) v).map Prod.fst ↔
            k ∈ m.map Prod.fst ∨
              ((matchesDay date s ∧ overlapsWindow start3h end5h s) ∧
                contribKey s = k)) := by
        intro v
        rw [mem_keys_setMap]
        unfold contribKey
        constructor
        · rintro (h | h)
          · exact Or.inl h
          · exact Or.inr ⟨⟨hday, hpos⟩, h.symm⟩
        · rintro (h | ⟨-, h⟩)
          · exact Or.inl h
          · exact Or.inr h.symm
      cases hl : lookupMap m (s.Name ++ s.GoogleID) with
      | some st => exact hgoal _
      | none => exact hgoal _
    · rw [if_neg hpos]
      constructor
      · exact Or.inl
      · rintro (h | ⟨⟨-, hov⟩, -⟩)
        · exact h
        · exact absurd hov hpos
  · rw [if_neg hday]
    constructor
    · exact Or.inl
    · rintro (h | ⟨⟨hd, -⟩, -⟩)
      · exact h
      · exact absurd hd hday

/-- One Aggregator step keeps the key set duplicate-free. -/
theorem nodup_keys_aggStep (date start3h end5h sod : Time) (m : TimeMap)
    (s : Session) (h : (m.map Prod.fst).Nodup) :
    ((aggStep date start3h end5h sod m s).map Prod.fst).Nodup := by
  unfold aggStep
  by_cases hday : matchesDay date s
  · rw [if_pos hday]
    by_cases hpos : overlapsWindow start3h end5h s
    · rw [if_pos hpos]
      cases hl : lookupMap m (s.Name ++ s.GoogleID) with
      | some st => exact nodup_keys_setMap _ _ m h
      | none => exact nodup_keys_setMap _ _ m h
    · rw [if_neg hpos]; exact h
  · rw [if_neg hday]; exact h

/-- Effect of the Aggregator's whole fold on the key set. -/
theorem mem_keys_foldl (date start3h end5h sod : Time) (k : String) :
    ∀ (l : List Session) (m : TimeMap),
      (k ∈ (l.foldl (aggStep date start3h end5h sod) m).map Prod.fst ↔
        k ∈ m.map Prod.fst ∨
          ∃ s, s ∈ l ∧
            (matchesDay date s ∧ overlapsWindow start3h end5h s) ∧
            contribKey s = k) := by
  intro l
  induction l with
  | nil => intro m; simp
  | cons s l ih =>
    intro m
    rw [List.foldl_cons, ih, mem_keys_aggStep]
    constructor
    · rintro ((h | h) | ⟨t, ht, hc⟩)
      · exact Or.inl h
      · exact Or.inr ⟨s, List.mem_cons_self _ _, h⟩
      · exact Or.inr ⟨t, List.mem_cons_of_mem _ ht, hc⟩
    · rintro (h | ⟨t, ht, hc⟩)
      · exact Or.inl (Or.inl h)
      · rcases List.mem_cons.mp ht with rfl | ht
        · exact Or.inl (Or.inr hc)
        · exact Or.inr ⟨t, ht, hc⟩

/-- The Aggregator's fold keeps the key set duplicate-free. -/
theorem nodup_keys_foldl (date start3h end5h sod : Time) :
    ∀ (l : List Session) (m : TimeMap), (m.map Prod.fst).Nodup →
      ((l.foldl (aggStep date start3h end5h sod) m).map Prod.fst).Nodup := by
  intro l
  induction l with
  | nil => intro m h; exact h
  | cons s l ih =>
    intro m h
    rw [List.foldl_cons]
    exact ih _ (nodup_keys_aggStep date start3h end5h sod m s h)

/-- C3 (amended): the Aggregator's output holds exactly one record per
distinct composite key `subjectKey ++ userId` among the sessions that
match the target day with nonzero in-window overlap; distinct
`(subjectKey, userId)` pairs whose concatenations coincide share that
one record. -/
theorem C3_amended_one_record_per_composite_key
    (sessions : List Session) (date : Time) :
    ((CalculateTotalTimeForDate sessions date).map Prod.fst).Nodup ∧
    ∀ k : String,
      k ∈ (CalculateTotalTimeForDate sessions date).map Prod.fst ↔
        ∃ s, s ∈ sessions ∧ contributes date s ∧ contribKey s = k := by
  constructor
  · exact nodup_keys_foldl _ _ _ _ sessions [] (by simp)
  · intro k
    unfold CalculateTotalTimeForDate
    rw [mem_keys_foldl]
    simp only [List.map_nil, List.not_mem_nil, false_or]
    unfold contributes
    exact Iff.rfl

/-- C3 counterexample: the sessions `("ab", "c")` and `("a", "bc")`
form distinct `(subjectKey, userId)` pairs, yet the Aggregator merges
them into a single record under the collided composite key `"abc"`
(with both durations summed), so distinct pairs do share a record. -/
theorem C3_counterexample :
    (Session.mk "ab" "c" 10800 18000).Name ≠ (Session.mk "a" "bc" 10800 18000).Name ∧
    CalculateTotalTimeForDate
        [⟨"ab", "c", 10800, 18000⟩, ⟨"a", "bc", 10800, 18000⟩] 0 =
      [("abc", ⟨"ab", "c", 14400, 0⟩)] := by
  decide

/-- C5: for every session list, target date and composite key, the
Aggregator's total for that key is the sum over the day-matching
sessions of that key of
`max 0 (min endTime (midnight+5h) - max startTime (midnight+3h))`;
in particular the session `[2024-08-06T02:00:00Z, 2024-08-06T06:00:00Z]`
aggregated for `2024-08-06` contributes exactly 2 hours (7200 s). -/
theorem C5_window_clipping (sessions : List Session) (date : Time)
    (k : String) :
    totalOf (CalculateTotalTimeForDate sessions date) k =
      ((sessions.filter fun s =>
          decide (matchesDay date s ∧ contribKey s = k)).map
        (clampContribution date)).sum ∧
    CalculateTotalTimeForDate
        [⟨"A", "u", 1722909600, 1722924000⟩] 1722902400 =
      [("Au", ⟨"A", "u", 7200, 1722902400⟩)] := by
  constructor
  · have h := totalOf_foldl date (truncDay date + 10800)
      (truncDay date + 18000) (truncDay date) k sessions []
    unfold CalculateTotalTimeForDate
    rw [h]
    unfold totalOf lookupMap clampContribution
    rw [zero_add]
  · decide

/-- C6: a session whose start time's UTC calendar day (year and
day-of-year) differs from the target date's contributes nothing — the
Aggregator's output is the same as if the session were absent; in
particular `[2024-08-05T23:30:00Z, 2024-08-06T04:00:00Z]` aggregated
for `2024-08-06` yields no record at all despite overlapping the
window. -/
theorem C6_date_boundary_exclusion :
    (∀ (xs ys : List Session) (s : Session) (date : Time),
      ¬ matchesDay date s →
      CalculateTotalTimeForDate (xs ++ s :: ys) date =
        CalculateTotalTimeForDate (xs ++ ys) date) ∧
    CalculateTotalTimeForDate
        [⟨"A", "u", 1722900600, 1722916800⟩] 1722902400 = [] := by
  constructor
  · intro xs ys s date h
    unfold CalculateTotalTimeForDate
    rw [List.foldl_append, List.foldl_append, List.foldl_cons]
    have : aggStep date (truncDay date + 10800) (truncDay date + 18000)
        (truncDay date)
        (List.foldl (aggStep date (truncDay date + 10800)
          (truncDay date + 18000) (truncDay date)) [] xs) s =
        List.foldl (aggStep date (truncDay date + 10800)
          (truncDay date + 18000) (truncDay date)) [] xs := by
      unfold aggStep
      rw [if_neg h]
    rw [this]
  · decide

theorem C6_witness :
    CalculateTotalTimeForDate
        ([⟨"B", "v", 1722913200, 1722916800⟩] ++
          (⟨"A", "u", 1722900600, 1722916800⟩ : Session) :: []) 1722902400 =
      CalculateTotalTimeForDate
        ([⟨"B", "v", 1722913200, 1722916800⟩] ++ []) 1722902400 :=
  C6_date_boundary_exclusion.1 [⟨"B", "v", 1722913200, 1722916800⟩] []
    ⟨"A", "u", 1722900600, 1722916800⟩ 1722902400 (by decide)

/-! ### Lemmas about the Reconstructor -/

theorem minTime_le_left (a b : Time) : minTime a b ≤ a := by
  unfold minTime
  by_cases h : a < b
  · rw [if_pos h]
  · rw [if_neg h]
    exact le_of_not_lt h

theorem left_le_maxTime (a b : Time) : a ≤ maxTime a b := by
  unfold maxTime
  by_cases h : b < a
  · rw [if_pos h]
  · rw [if_neg h]
    exact le_of_not_lt h

/-- Complete case analysis of one successful Reconstructor step. -/
theorem stepActivity_cases (a : VoiceChannelUser) (st st' : RState)
    (h : stepActivity a st = some st') :
    (∃ t u, a.Active = 2 ∧ parseRFC3339 a.CreateTime = some t ∧
      parseRFC3339 a.UpdateTime = some u ∧
      ((st.1 = none ∧ st' = (some ⟨a.DisplayName, a.UserID, t, u⟩, st.2)) ∨
       (∃ c, st.1 = some c ∧
         st' = (some ⟨c.Name, c.GoogleID, minTime c.StartTime t,
                      maxTime c.EndTime u⟩, st.2)))) ∨
    (∃ u c, a.Active = 0 ∧ parseRFC3339 a.UpdateTime = some u ∧
      st.1 = some c ∧
      st' = (none, st.2 ++ [⟨c.Name, c.GoogleID, c.StartTime,
                             maxTime c.EndTime u⟩])) ∨
    (a.Active ≠ 2 ∧ (a.Active = 0 → st.1 = none) ∧ st' = st) := by
  unfold stepActivity at h
  by_cases h2 : a.Active = 2
  · rw [if_pos h2] at h
    cases hct : parseRFC3339 a.CreateTime with
    | none =>
      rw [hct] at h
      cases hut : parseRFC3339 a.UpdateTime <;> rw [hut] at h <;>
        exact Option.noConfusion h
    | some t =>
      rw [hct] at h
      cases hut : parseRFC3339 a.UpdateTime with
      | none =>
        rw [hut] at h
        exact Option.noConfusion h
      | some u =>
        rw [hut] at h
        cases hcur : st.1 with
        | none =>
          rw [hcur] at h
          exact Or.inl ⟨t, u, h2, rfl, rfl,
            Or.inl ⟨rfl, (Option.some.inj h).symm⟩⟩
        | some c =>
          rw [hcur] at h
          exact Or.inl ⟨t, u, h2, rfl, rfl,
            Or.inr ⟨c, rfl, (Option.some.inj h).symm⟩⟩
  · rw [if_neg h2] at h
    by_cases h0 : a.Active = 0
    · rw [if_pos h0] at h
      cases hcur : st.1 with
      | some c =>
        rw [hcur] at h
        cases hut : parseRFC3339 a.UpdateTime with
        | none =>
          rw [hut] at h
          exact Option.noConfusion h
        | some u =>
          rw [hut] at h
          exact Or.inr (Or.inl ⟨u, c, h0, rfl, rfl,
            (Option.some.inj h).symm⟩)
      | none =>
        rw [hcur] at h
        exact Or.inr (Or.inr ⟨h2, fun _ => rfl, (Option.some.inj h).symm⟩)
    · rw [if_neg h0] at h
      exact Or.inr (Or.inr ⟨h2, fun hh => absurd hh h0,
        (Option.some.inj h).symm⟩)

theorem loopPartition_append :
    ∀ (xs ys : List VoiceChannelUser) (st : RState),
      loopPartition (xs ++ ys) st =
        match loopPartition xs st with
        | none => none
        | some st' => loopPartition ys st' := by
  intro xs
  induction xs with
  | nil => intro ys st; rfl
  | cons a xs ih =>
    intro ys st
    rw [List.cons_append]
    simp only [loopPartition]
    cases stepActivity a st with
    | none => rfl
    | some st' => exact ih ys st'

/-- A processed `Active` event with an unparseable timestamp aborts the
partition loop. -/
theorem loopPartition_none_of_bad (e : VoiceChannelUser)
    (h2 : e.Active = 2)
    (hbad : parseRFC3339 e.CreateTime = none ∨
      parseRFC3339 e.UpdateTime = none) :
    ∀ (l : List VoiceChannelUser) (st : RState), e ∈ l →
      loopPartition l st = none := by
  intro l
  induction l with
  | nil => intro st h; exact absurd h (List.not_mem_nil e)
  | cons a l ih =>
    intro st h
    simp only [loopPartition]
    rcases List.mem_cons.mp h with rfl | h
    · have hstep : stepActivity e st = none := by
        unfold stepActivity
        rw [if_pos h2]
        rcases hbad with hb | hb
        · rw [hb]
        · rw [hb]
          cases parseRFC3339 e.CreateTime <;> rfl
      rw [hstep]
    · cases hs : stepActivity a st with
      | none => rfl
      | some st' => exact ih st' h

theorem mem_partitionOf (acts : List VoiceChannelUser) (k : String)
    (a : VoiceChannelUser) :
    a ∈ partitionOf acts k ↔ a ∈ acts ∧ a.DisplayName = k := by
  unfold partitionOf
  rw [List.mem_filter]
  simp only [decide_eq_true_eq]

theorem mem_groupKeysAux :
    ∀ (acts : List VoiceChannelUser) (seen : List String) (k : String),
      (k ∈ groupKeysAux acts seen ↔
        (∃ a, a ∈ acts ∧ a.DisplayName = k) ∧ k ∉ seen) := by
  intro acts
  induction acts with
  | nil => intro seen k; simp [groupKeysAux]
  | cons a acts ih =>
    intro seen k
    simp only [groupKeysAux]
    by_cases h : a.DisplayName ∈ seen
    · rw [if_pos h, ih]
      constructor
      · rintro ⟨⟨b, hb, rfl⟩, hk⟩
        exact ⟨⟨b, List.mem_cons_of_mem _ hb, rfl⟩, hk⟩
      · rintro ⟨⟨b, hb, rfl⟩, hk⟩
        rcases List.mem_cons.mp hb with rfl | hb
        · exact absurd h hk
        · exact ⟨⟨b, hb, rfl⟩, hk⟩
    · rw [if_neg h, List.mem_cons, ih]
      constructor
      · rintro (rfl | ⟨⟨b, hb, rfl⟩, hk⟩)
        · exact ⟨⟨a, List.mem_cons_self _ _, rfl⟩, h⟩
        · exact ⟨⟨b, List.mem_cons_of_mem _ hb, rfl⟩,
            fun hks => hk (List.mem_cons_of_mem _ hks)⟩
      · rintro ⟨⟨b, hb, rfl⟩, hk⟩
        rcases List.mem_cons.mp hb with rfl | hb
        · exact Or.inl rfl
        · by_cases hba : b.DisplayName = a.DisplayName
          · exact Or.inl hba
          · refine Or.inr ⟨⟨b, hb, rfl⟩, ?_⟩
            intro hmem
            rcases List.mem_cons.mp hmem with heq | hmem
            · exact hba heq
            · exact hk hmem

theorem mem_groupKeys (acts : List VoiceChannelUser) (k : String) :
    k ∈ groupKeys acts ↔ ∃ a, a ∈ acts ∧ a.DisplayName = k := by
  unfold groupKeys
  rw [mem_groupKeysAux]
  simp

/-- One failing partition makes the whole grouped result `nil`. -/
theorem processGroups_none (acts : List VoiceChannelUser) (k : String)
    (hk : processPartition (partitionOf acts k) = none) :
    ∀ ks : List String, k ∈ ks → processGroups acts ks = none := by
  intro ks
  induction ks with
  | nil => intro h; exact absurd h (List.not_mem_nil k)
  | cons k' ks ih =>
    intro h
    simp only [processGroups]
    rcases List.mem_cons.mp h with rfl | h
    · rw [hk]
    · cases hp : processPartition (partitionOf acts k') with
      | none => rfl
      | some ss => rw [ih h]

/-- Every session of a successful grouped result comes from the
successful processing of one of the listed partitions. -/
theorem processGroups_mem :
    ∀ (ks : List String) (acts : List VoiceChannelUser)
      (out : List Session), processGroups acts ks = some out →
      ∀ s ∈ out, ∃ k, k ∈ ks ∧ ∃ ss,
        processPartition (partitionOf acts k) = some ss ∧ s ∈ ss := by
  intro ks
  induction ks with
  | nil =>
    intro acts out h s hs
    rw [show out = [] from (Option.some.inj h).symm] at hs
    exact absurd hs (List.not_mem_nil s)
  | cons k ks ih =>
    intro acts out h s hs
    simp only [processGroups] at h
    cases hp : processPartition (partitionOf acts k) with
    | none => rw [hp] at h; exact Option.noConfusion h
    | some ss =>
      rw [hp] at h
      cases hg : processGroups acts ks with
      | none => rw [hg] at h; exact Option.noConfusion h
      | some rest =>
        rw [hg] at h
        rw [show out = ss ++ rest from (Option.some.inj h).symm] at hs
        rcases List.mem_append.mp hs with hs | hs
        · exact ⟨k, List.mem_cons_self _ _, ss, hp, hs⟩
        · obtain ⟨k', hk', ss', hp', hs'⟩ := ih acts rest hg s hs
          exact ⟨k', List.mem_cons_of_mem _ hk', ss', hp', hs'⟩

/-- An event whose parsed timestamps (when it is an `Active` event) are
in order: `createdAt ≤ updatedAt`. -/
def GoodActiveEvent (a : VoiceChannelUser) : Prop :=
  a.Active = 2 → ∀ t u, parseRFC3339 a.CreateTime = some t →
    parseRFC3339 a.UpdateTime = some u → t ≤ u

/-- The Reconstructor-state invariant: the open session and every
emitted session have ordered bounds. -/
def WellOrdered (st : RState) : Prop :=
  (∀ c, st.1 = some c → c.StartTime ≤ c.EndTime) ∧
  (∀ s, s ∈ st.2 → s.StartTime ≤ s.EndTime)

theorem stepActivity_wellOrdered (a : VoiceChannelUser) (st st' : RState)
    (ha : GoodActiveEvent a) (hst : WellOrdered st)
    (h : stepActivity a st = some st') : WellOrdered st' := by
  rcases stepActivity_cases a st st' h with
    ⟨t, u, h2, hct, hut, hcase⟩ | ⟨u, c, h0, hut, hcur, hst'⟩ | ⟨-, -, hst'⟩
  · rcases hcase with ⟨-, hst'⟩ | ⟨c, hcur, hst'⟩
    · subst hst'
      refine ⟨?_, hst.2⟩
      intro c' hc'
      rw [← Option.some.inj hc']
      exact ha h2 t u hct hut
    · subst hst'
      have hce := hst.1 c hcur
      refine ⟨?_, hst.2⟩
      intro c' hc'
      rw [← Option.some.inj hc']
      exact le_trans (minTime_le_left _ _)
        (le_trans hce (left_le_maxTime _ _))
  · subst hst'
    have hce := hst.1 c hcur
    refine ⟨fun c' hc' => Option.noConfusion hc', ?_⟩
    intro s hs
    rcases List.mem_append.mp hs with hs | hs
    · exact hst.2 s hs
    · rw [List.mem_singleton] at hs
      subst hs
      exact le_trans hce (left_le_maxTime _ _)
  · subst hst'
    exact hst

theorem loopPartition_wellOrdered :
    ∀ (l : List VoiceChannelUser) (st st' : RState),
      (∀ a ∈ l, GoodActiveEvent a) → WellOrdered st →
      loopPartition l st = some st' → WellOrdered st' := by
  intro l
  induction l with
  | nil =>
    intro st st' _ hst h
    rw [← Option.some.inj h]
    exact hst
  | cons a l ih =>
    intro st st' hg hst h
    simp only [loopPartition] at h
    cases hs : stepActivity a st with
    | none =>
      rw [hs] at h
      exact Option.noConfusion h
    | some st1 =>
      rw [hs] at h
      exact ih st1 st' (fun b hb => hg b (List.mem_cons_of_mem _ hb))
        (stepActivity_wellOrdered a st st1
          (hg a (List.mem_cons_self _ _)) hst hs) h

theorem processPartition_wellOrdered (acts : List VoiceChannelUser)
    (hg : ∀ a ∈ acts, GoodActiveEvent a) (out : List Session)
    (h : processPartition acts = some out) :
    ∀ s ∈ out, s.StartTime ≤ s.EndTime := by
  unfold processPartition at h
  cases hl : loopPartition acts (none, []) with
  | none =>
    rw [hl] at h
    exact Option.noConfusion h
  | some st =>
    rw [hl] at h
    have hw : WellOrdered st :=
      loopPartition_wellOrdered acts (none, []) st hg
        ⟨fun c hc => Option.noConfusion hc,
         fun s hs => absurd hs (List.not_mem_nil s)⟩ hl
    obtain ⟨cur, sessions⟩ := st
    cases cur with
    | some c =>
      rw [← Option.some.inj h]
      intro s hs
      rcases List.mem_append.mp hs with hs | hs
      · exact hw.2 s hs
      · rw [List.mem_singleton] at hs
        subst hs
        exact hw.1 s rfl
    | none =>
      rw [← Option.some.inj h]
      exact hw.2

/-- C1 (amended): provided every `Active` event of the batch has
`createdAt ≤ updatedAt` (after parsing), every Session emitted by the
Reconstructor — including sessions closed by an `Inactive` event and
trailing sessions emitted at end of partition — satisfies
`StartTime ≤ EndTime`. -/
theorem C1_amended_closure_invariant (acts : List VoiceChannelUser)
    (hgood : ∀ a ∈ acts, GoodActiveEvent a)
    (out : List Session) (h : processActivities acts = some out) :
    ∀ s ∈ out, s.StartTime ≤ s.EndTime := by
  intro s hs
  unfold processActivities at h
  obtain ⟨k, -, ss, hp, hss⟩ :=
    processGroups_mem (groupKeys acts) acts out h s hs
  refine processPartition_wellOrdered (partitionOf acts k) ?_ ss hp s hss
  intro a ha
  exact hgood a ((mem_partitionOf acts k a).mp ha).1

/-- C1 counterexample: a single `Active` event with
`createdAt = 2024-08-06T10:00:00Z > updatedAt = 2024-08-06T09:00:00Z`
makes the Reconstructor emit a Session with `EndTime < StartTime`, so
the unconditional closure invariant is false. -/
theorem C1_counterexample :
    processActivities
        [⟨0, "u", 0, 0, "A", "2024-08-06T10:00:00Z",
          "2024-08-06T09:00:00Z", 2⟩] =
      some [⟨"A", "u", 1722938400, 1722934800⟩] ∧
    (Session.mk "A" "u" 1722938400 1722934800).EndTime <
      (Session.mk "A" "u" 1722938400 1722934800).StartTime := by
  decide

theorem C1_witness :
    (Session.mk "A" "uA" 1722913200 1722916800).StartTime ≤
      (Session.mk "A" "uA" 1722913200 1722916800).EndTime :=
  C1_amended_closure_invariant
    [⟨0, "uA", 0, 0, "A", "2024-08-06T03:00:00Z",
      "2024-08-06T04:00:00Z", 2⟩]
    (by
      intro a ha h2 t u hct hut
      rcases List.mem_cons.mp ha with rfl | ha
      · have h1 : (some t : Option Time) = some (1722913200 : Int) := by
          rw [← hct]
          decide
        have h3 : (some u : Option Time) = some (1722916800 : Int) := by
          rw [← hut]
          decide
        rw [Option.some.inj h1, Option.some.inj h3]
        decide
      · exact absurd ha (List.not_mem_nil a))
    [⟨"A", "uA", 1722913200, 1722916800⟩]
    (by decide)
    ⟨"A", "uA", 1722913200, 1722916800⟩
    (by decide)

/-- C2 (amended): a malformed `CreateTime` or `UpdateTime` on an
`Active` (state 2) event anywhere in the batch aborts the whole
reconstruction: `processActivities` returns `none` (Go's `nil`), with
no partial results for any subject. -/
theorem C2_amended_abort_on_parsed_malformed
    (acts : List VoiceChannelUser) (e : VoiceChannelUser)
    (he : e ∈ acts) (h2 : e.Active = 2)
    (hbad : parseRFC3339 e.CreateTime = none ∨
      parseRFC3339 e.UpdateTime = none) :
    processActivities acts = none := by
  unfold processActivities
  refine processGroups_none acts e.DisplayName ?_ (groupKeys acts) ?_
  · unfold processPartition
    rw [loopPartition_none_of_bad e h2 hbad (partitionOf acts e.DisplayName)
      (none, []) ((mem_partitionOf acts e.DisplayName e).mpr ⟨he, rfl⟩)]
  · exact (mem_groupKeys acts e.DisplayName).mpr ⟨e, he, rfl⟩

/-- C2 counterexample: a batch holding a malformed event (subject "B",
state `Inactive` with no open session, unparseable `UpdateTime`) is NOT
aborted: the Reconstructor skips the malformed event without parsing it
and still returns subject "A"'s session, a non-empty result. -/
theorem C2_counterexample :
    parseRFC3339 "garbage" = none ∧
    processActivities
        [⟨0, "uA", 0, 0, "A", "2024-08-06T03:00:00Z",
          "2024-08-06T04:00:00Z", 2⟩,
         ⟨1, "uB", 0, 0, "B", "x", "garbage", 0⟩] =
      some [⟨"A", "uA", 1722913200, 1722916800⟩] := by
  decide

theorem C2_witness :
    processActivities
        [⟨0, "u", 0, 0, "A", "bad", "2024-08-06T04:00:00Z", 2⟩] = none :=
  C2_amended_abort_on_parsed_malformed
    [⟨0, "u", 0, 0, "A", "bad", "2024-08-06T04:00:00Z", 2⟩]
    ⟨0, "u", 0, 0, "A", "bad", "2024-08-06T04:00:00Z", 2⟩
    (by decide) (by decide) (Or.inl (by decide))

/-- C7: while a session is open, an `Active` event rewrites it to
`startTime = min(startTime, createdAt)`,
`endTime = max(endTime, updatedAt)` — so `startTime` never increases
and `endTime` never decreases — and emits no additional session (the
emitted list is unchanged and the session stays open). -/
theorem C7_active_widening (a : VoiceChannelUser) (s : Session)
    (sess : List Session) (t u : Time) (h2 : a.Active = 2)
    (hct : parseRFC3339 a.CreateTime = some t)
    (hut : parseRFC3339 a.UpdateTime = some u) :
    stepActivity a (some s, sess) =
      some (some ⟨s.Name, s.GoogleID, minTime s.StartTime t,
                  maxTime s.EndTime u⟩, sess) ∧
    minTime s.StartTime t ≤ s.StartTime ∧
    s.EndTime ≤ maxTime s.EndTime u := by
  refine ⟨?_, minTime_le_left _ _, left_le_maxTime _ _⟩
  unfold stepActivity
  rw [if_pos h2, hct, hut]

theorem C7_witness :
    stepActivity
        ⟨0, "u2", 0, 0, "N", "1970-01-01T00:00:20Z",
         "1970-01-01T00:00:30Z", 2⟩
        (some ⟨"N", "u1", 0, 10⟩, []) =
      some (some ⟨"N", "u1", minTime 0 20, maxTime 10 30⟩, []) ∧
    minTime 0 20 ≤ (0 : Int) ∧ (10 : Int) ≤ maxTime 10 30 :=
  C7_active_widening _ ⟨"N", "u1", 0, 10⟩ [] 20 30
    (by decide) (by decide) (by decide)

/-- C8: a partition consisting of a single `Active` event with
`createdAt = T0`, `updatedAt = T1` and no terminating `Inactive` event
still yields exactly one Session `[T0, T1]` (the trailing open session
is emitted at end of partition). -/
theorem C8_trailing_open_session (a : VoiceChannelUser) (t0 t1 : Time)
    (h2 : a.Active = 2) (hct : parseRFC3339 a.CreateTime = some t0)
    (hut : parseRFC3339 a.UpdateTime = some t1) :
    processActivities [a] = some [⟨a.DisplayName, a.UserID, t0, t1⟩] := by
  have hkeys : groupKeys [a] = [a.DisplayName] := by
    unfold groupKeys
    simp [groupKeysAux]
  have hpart : partitionOf [a] a.DisplayName = [a] := by
    unfold partitionOf
    simp
  have hstep : stepActivity a ((none, []) : RState) =
      some (some ⟨a.DisplayName, a.UserID, t0, t1⟩, []) := by
    unfold stepActivity
    rw [if_pos h2, hct, hut]
  have hloop : processPartition [a] =
      some [⟨a.DisplayName, a.UserID, t0, t1⟩] := by
    unfold processPartition
    simp only [loopPartition]
    rw [hstep]
    rfl
  unfold processActivities
  rw [hkeys]
  simp only [processGroups]
  rw [hpart, hloop]
  rfl

theorem C8_witness :
    processActivities
        [⟨0, "u", 0, 0, "A", "2024-08-06T03:00:00Z",
          "2024-08-06T04:00:00Z", 2⟩] =
      some [⟨"A", "u", 1722913200, 1722916800⟩] :=
  C8_trailing_open_session
    ⟨0, "u", 0, 0, "A", "2024-08-06T03:00:00Z", "2024-08-06T04:00:00Z", 2⟩
    1722913200 1722916800 (by decide) (by decide) (by decide)

/-- C9: an `Inactive` event arriving while no session is open for its
subject is a no-op — removing it from the partition's event stream
leaves the Reconstructor's output for that partition unchanged — and an
event whose state is neither `Active` (2) nor `Inactive` (0) is likewise
ignored. -/
theorem C9_noop_events :
    (∀ (xs ys : List VoiceChannelUser) (e : VoiceChannelUser),
      e.Active = 0 →
      (∀ cur sess, loopPartition xs (none, []) = some (cur, sess) →
        cur = none) →
      processPartition (xs ++ e :: ys) = processPartition (xs ++ ys)) ∧
    (∀ (xs ys : List VoiceChannelUser) (e : VoiceChannelUser),
      e.Active ≠ 0 → e.Active ≠ 2 →
      processPartition (xs ++ e :: ys) = processPartition (xs ++ ys)) := by
  constructor
  · intro xs ys e h0 hopen
    unfold processPartition
    rw [loopPartition_append, loopPartition_append]
    cases hl : loopPartition xs (none, []) with
    | none => rfl
    | some st =>
      obtain ⟨cur, sess⟩ := st
      have hcur : cur = none := hopen cur sess hl
      subst hcur
      have hstep : stepActivity e ((none, sess) : RState) =
          some (none, sess) := by
        unfold stepActivity
        rw [if_neg (by rw [h0]; decide), if_pos h0]
      simp only [loopPartition]
      rw [hstep]
  · intro xs ys e h0 h2
    unfold processPartition
    rw [loopPartition_append, loopPartition_append]
    cases hl : loopPartition xs (none, []) with
    | none => rfl
    | some st =>
      have hstep : stepActivity e st = some st := by
        unfold stepActivity
        rw [if_neg h2, if_neg h0]
      simp only [loopPartition]
      rw [hstep]

theorem C9_witness :
    processPartition
        ([] ++ (⟨0, "u", 0, 0, "A", "x", "y", 0⟩ : VoiceChannelUser) :: []) =
      processPartition ([] ++ []) ∧
    processPartition
        ([] ++ (⟨0, "u", 0, 0, "A", "x", "y", 7⟩ : VoiceChannelUser) :: []) =
      processPartition ([] ++ []) :=
  ⟨C9_noop_events.1 [] [] ⟨0, "u", 0, 0, "A", "x", "y", 0⟩ (by decide)
      (fun cur sess h => (congrArg Prod.fst (Option.some.inj h)).symm),
   C9_noop_events.2 [] [] ⟨0, "u", 0, 0, "A", "x", "y", 7⟩
      (by decide) (by decide)⟩

/-- C10: once a session is open, no later event changes its `GoogleID`
(or `Name`): widening keeps the open session's identity, and a closing
`Inactive` event emits it with the opener's identity; consequently in
the concrete batch below, where "u2"'s `Active` event extends a session
opened by "u1" under the same display name "N", the whole interval
10:00–10:30 is attributed to "u1". -/
theorem C10_userid_from_opening_event :
    (∀ (a : VoiceChannelUser) (s : Session) (sess : List Session)
      (st' : RState),
      stepActivity a (some s, sess) = some st' →
      (∀ c, st'.1 = some c → c.GoogleID = s.GoogleID) ∧
      (∀ t, t ∈ st'.2 → t ∈ sess ∨ t.GoogleID = s.GoogleID)) ∧
    processActivities
        [⟨0, "u1", 0, 0, "N", "2024-08-06T10:00:00Z",
          "2024-08-06T10:05:00Z", 2⟩,
         ⟨1, "u2", 0, 0, "N", "2024-08-06T10:05:00Z",
          "2024-08-06T10:30:00Z", 2⟩,
         ⟨2, "u2", 0, 0, "N", "2024-08-06T10:30:00Z",
          "2024-08-06T10:30:00Z", 0⟩] =
      some [⟨"N", "u1", 1722938400, 1722940200⟩] := by
  constructor
  · intro a s sess st' h
    rcases stepActivity_cases a (some s, sess) st' h with
      ⟨t, u, -, -, -, hcase⟩ | ⟨u, c, -, -, hcur, hst'⟩ | ⟨-, -, hst'⟩
    · rcases hcase with ⟨hnone, -⟩ | ⟨c, hcur, hst'⟩
      · exact Option.noConfusion hnone
      · have hcs : s = c := Option.some.inj hcur
        subst hcs
        subst hst'
        constructor
        · intro c' hc'
          rw [← Option.some.inj hc']
        · intro t' ht'
          exact Or.inl ht'
    · have hcs : s = c := Option.some.inj hcur
      subst hcs
      subst hst'
      constructor
      · intro c' hc'
        exact Option.noConfusion hc'
      · intro t' ht'
        rcases List.mem_append.mp ht' with ht' | ht'
        · exact Or.inl ht'
        · rw [List.mem_singleton] at ht'
          subst ht'
          exact Or.inr rfl
    · subst hst'
      exact ⟨fun c' hc' => by rw [← Option.some.inj hc'],
        fun t' ht' => Or.inl ht'⟩
  · decide

theorem C10_witness :
    (Session.mk "N" "u1" 0 30).GoogleID = "u1" :=
  (C10_userid_from_opening_event.1
      ⟨1, "u2", 0, 0, "N", "1970-01-01T00:00:20Z",
       "1970-01-01T00:00:30Z", 2⟩
      ⟨"N", "u1", 0, 10⟩ []
      (some ⟨"N", "u1", 0, 30⟩, [])
      (by decide)).1 ⟨"N", "u1", 0, 30⟩ rfl

end Opentalk
